import Mathlib

/-!
Verification of the rolling-window iteration engine of `rolling/base.py`
together with the two window strategies described by the specification
(the buffered reduction `Apply` and the incremental `PolynomialHash`).

The engine lifecycle (`RollingObject._next_fixed`, `RollingObject._next_variable`,
`RollingObject.__new__`, `RollingObject._validate_window_size`) is embedded
from `rolling/base.py`.  The source iterator is embedded as the list of the
elements it has not yet produced; `StopIteration` raised by the source is the
case in which that list is empty.  The concrete strategy classes (`apply.py`,
`hash.py`) are not part of the sources, only their tests and the abstract
contract are, so their operations are modelled from the specification; each
such definition is marked `Modelled from the spec:` in its doc string.
-/

/-- The window-strategy contract of `rolling/base.py` (the abstract methods of
`RollingObject`), over a strategy state `σ`.  `add_new` and `update` receive
the element the strategy takes from the source; the engine itself decides
whether such an element exists, which embeds the `StopIteration` signalling of
the Python iterator protocol.  `obs` reads the `_obs` attribute that
variable-window instances must keep (the current logical window size). -/
structure RollingStrategy (σ : Type) where
  add_new : σ → Int → σ
  remove_old : σ → σ
  update : σ → Int → σ
  current_value : σ → Int
  obs : σ → Nat

/-- Engine state of a variable-size window: the `_filled` flag set by
`RollingObject.__new__` and `_next_variable`, the strategy state, and the part
of the source not yet consumed. -/
structure VarState (σ : Type) where
  filled : Bool
  strat : σ
  rest : List Int

/-- One `__next__` call of a variable-size window, from
`RollingObject._next_variable` (rolling/base.py lines 52-70).  The first
component is `some value` when the call returns a value and `none` when it
raises `StopIteration`; the second component is the state after the call
(unchanged when `StopIteration` is raised, since a failed `_add_new` or
`_update` leaves the strategy state untouched). -/
def nextVariable {σ : Type} (S : RollingStrategy σ) (ws : Nat)
    (st : VarState σ) : Option Int × VarState σ :=
  if st.filled = false ∧ S.obs st.strat < ws then
    match st.rest with
    | [] => (none, st)
    | x :: r =>
      let s := S.add_new st.strat x
      (some (S.current_value s),
        ⟨if S.obs s = ws then true else st.filled, s, r⟩)
  else
    match st.rest with
    | x :: r =>
      let s := S.update st.strat x
      (some (S.current_value s), ⟨st.filled, s, r⟩)
    | [] =>
      if S.obs st.strat = 1 then (none, st)
      else
        let s := S.remove_old st.strat
        (some (S.current_value s), ⟨st.filled, s, []⟩)

/-- The list of values produced by repeated `__next__` calls of a
variable-size window, stopping at the first `StopIteration`.  The `fuel`
argument bounds the number of calls; every theorem below supplies enough fuel
for the run to reach exhaustion. -/
def runVariable {σ : Type} (S : RollingStrategy σ) (ws : Nat) :
    Nat → VarState σ → List Int
  | 0, _ => []
  | fuel + 1, st =>
    match nextVariable S ws st with
    | (none, _) => []
    | (some v, st') => v :: runVariable S ws fuel st'

/-- One `__next__` call of a fixed-size window, from
`RollingObject._next_fixed` (rolling/base.py lines 47-50): call `_update`,
then return `current_value`; `StopIteration` from `_update` propagates and
leaves the state unchanged. -/
def nextFixed {σ : Type} (S : RollingStrategy σ)
    (st : σ × List Int) : Option Int × (σ × List Int) :=
  match st.2 with
  | [] => (none, st)
  | x :: r =>
    let s := S.update st.1 x
    (some (S.current_value s), (s, r))

/-- The list of values produced by repeated `__next__` calls of a fixed-size
window.  Each successful call consumes one source element, so the recursion is
on the unconsumed source. -/
def runFixed {σ : Type} (S : RollingStrategy σ) : σ → List Int → List Int
  | _, [] => []
  | s, x :: r =>
    (S.current_value (S.update s x)) :: runFixed S (S.update s x) r

/-- `iterSteps step k st` is the result of the `k`-th further `__next__` call
after starting in `st` (so `k = 0` is the first call). -/
def iterSteps {α : Type} (step : α → Option Int × α) : Nat → α → Option Int × α
  | 0, st => step st
  | k + 1, st => iterSteps step k (step st).2

/-- Modelled from the spec: `apply.py` is not among the sources.  The `Apply`
strategy keeps an ordered FIFO buffer of the raw elements of the window and
applies the caller-supplied reduction `op` to it; `add_new` pushes to the
back, `remove_old` pops from the front, `update` pops the front and pushes the
new element to the back, and the logical window size is the buffer length. -/
def applyStrategy (op : List Int → Int) : RollingStrategy (List Int) where
  add_new := fun b x => b ++ [x]
  remove_old := fun b => b.tail
  update := fun b x => b.tail ++ [x]
  current_value := op
  obs := List.length

/-- The direct left-to-right Horner evaluation of the polynomial hash of a
sequence, the pure reference function `polynomial_hash_sequence` of the
specification (its values are checked literally by
`src/tests/test_hash.py::test_polynomial_hash_sequence`). -/
def polynomial_hash_sequence (base mod : Int) (xs : List Int) : Int :=
  xs.foldl (fun h x => (h * base + x) % mod) 0

/-- Modelled from the spec: `hash.py` is not among the sources.  The
`PolynomialHash` strategy state is the running accumulator `H` (an integer
kept in `[0, mod)`) together with the FIFO buffer of the window elements.
`add_new x` does `H := (H * base + x) % mod`; `remove_old` subtracts the
front element weighted by `base ^ (n - 1)` for `n` the current logical size
and renormalizes with `(... % mod + mod) % mod`; `update x` does the same
subtraction with `n = window_size` and then one Horner step with `x`. -/
def polyStrategy (base mod : Int) (ws : Nat) : RollingStrategy (Int × List Int) where
  add_new := fun s x => ((s.1 * base + x) % mod, s.2 ++ [x])
  remove_old := fun s =>
    (((s.1 - s.2.headI * base ^ (s.2.length - 1)) % mod + mod) % mod, s.2.tail)
  update := fun s x =>
    (((((s.1 - s.2.headI * base ^ (ws - 1)) % mod + mod) % mod) * base + x) % mod,
      s.2.tail ++ [x])
  current_value := fun s => s.1
  obs := fun s => s.2.length

/-- The two recognized window types of `rolling/base.py`. -/
inductive WindowType where
  | fixed
  | variable
deriving DecidableEq

/-- Modelled from the spec: the fixed-size initialisation of `Apply`
(`_init_fixed` of the absent `apply.py`) consumes the first
`window_size - 1` source elements into the buffer behind a sentinel `0`
occupying the slot that the first `_update` evicts, so that the first
produced value is the reduction of the first full window. -/
def applyInitFixed (ws : Nat) (input : List Int) : List Int × List Int :=
  (0 :: input.take (ws - 1), input.drop (ws - 1))

/-- Modelled from the spec: the fixed-size initialisation of `PolynomialHash`
(`_init_fixed` of the absent `hash.py`) seeds the accumulator with the direct
hash of the first `window_size - 1` elements and keeps them in the buffer
behind the same sentinel `0` (which has hash weight zero). -/
def polyInitFixed (base mod : Int) (ws : Nat) (input : List Int) :
    (Int × List Int) × List Int :=
  ((polynomial_hash_sequence base mod (input.take (ws - 1)),
    0 :: input.take (ws - 1)), input.drop (ws - 1))

/-- The full output sequence of an `Apply` engine, per window type.
Variable-size windows start (`_init_variable`, modelled from the spec) from an
empty buffer with `_obs = 0` and `_filled = False`. -/
def ApplyRun (input : List Int) (ws : Nat) (op : List Int → Int)
    (wt : WindowType) (fuel : Nat) : List Int :=
  match wt with
  | .fixed => runFixed (applyStrategy op) (applyInitFixed ws input).1 (applyInitFixed ws input).2
  | .variable => runVariable (applyStrategy op) ws fuel ⟨false, [], input⟩

/-- The full output sequence of a `PolynomialHash` engine, per window type.
Variable-size windows start (`_init_variable`, modelled from the spec) from an
empty buffer with accumulator `0`, `_obs = 0` and `_filled = False`. -/
def PolynomialHashRun (input : List Int) (ws : Nat) (base mod : Int)
    (wt : WindowType) (fuel : Nat) : List Int :=
  match wt with
  | .fixed =>
    runFixed (polyStrategy base mod ws) (polyInitFixed base mod ws input).1
      (polyInitFixed base mod ws input).2
  | .variable => runVariable (polyStrategy base mod ws) ws fuel ⟨false, (0, []), input⟩

/-- The Python values that can be passed as `window_size`: integers, booleans
(which are integers for `isinstance`), floats, and strings.  Only the checks
of `_validate_window_size` read them. -/
inductive PyVal where
  | pyInt : Int → PyVal
  | pyBool : Bool → PyVal
  | pyFloat : Rat → PyVal
  | pyStr : String → PyVal
deriving DecidableEq

/-- The errors that `rolling/base.py` can raise at construction, plus the
`AttributeError` that Python raises when a missing instance attribute is
read. -/
inductive PyErr where
  | typeError
  | valueError
  | attributeError
deriving DecidableEq

/-- Python `isinstance(k, int)`: true for `int` and for `bool`, which is a
subclass of `int`. -/
def isinstance_int : PyVal → Bool
  | .pyInt _ => true
  | .pyBool _ => true
  | _ => false

/-- The integer value of a Python value of integer type (`True` is `1`,
`False` is `0`).  Only read after `isinstance_int` has succeeded. -/
def pyIntVal : PyVal → Int
  | .pyInt n => n
  | .pyBool b => if b then 1 else 0
  | _ => 0

/-- Whether an `Except` result is an error. -/
def isErr {α : Type} : Except PyErr α → Bool
  | .error _ => true
  | .ok _ => false

/-- `RollingObject._validate_window_size` (rolling/base.py lines 102-109):
`TypeError` unless `isinstance(k, int)`, `ValueError` if `k <= 0`, otherwise
`k` itself. -/
def validate_window_size (k : PyVal) : Except PyErr PyVal :=
  if isinstance_int k = false then .error .typeError
  else if pyIntVal k ≤ 0 then .error .valueError
  else .ok k

/-- The mutable state of the `RollingObject` subclass object itself:
`__new__` assigns `cls.__init__` and `cls.__next__` from the requested
window type, so the binding is an attribute of the class, shared by all of
its instances.  `none` is the state before any construction (only the
abstract methods are bound). -/
structure ClassState where
  bound : Option String
deriving DecidableEq

/-- The instance attributes that `RollingObject.__new__` sets: `window_type`,
`window_size` (the validated value, kept as the Python value that was passed)
and, for variable windows only, `_filled`. -/
structure EngineAttrs where
  window_type : String
  window_size : PyVal
  filled : Option Bool
deriving DecidableEq

/-- `RollingObject.__new__` (rolling/base.py lines 21-38).  The window type
defaults to `"fixed"` when the keyword argument is absent; an unrecognized
window type raises `ValueError` before the class bindings are touched; a
recognized one rebinds `cls.__init__`/`cls.__next__` first and only then
validates `window_size`, so the class mutation survives a failed validation
while no instance is produced. -/
def RollingObject_new (cs : ClassState) (window_size : PyVal)
    (kw_window_type : Option String) : ClassState × Except PyErr EngineAttrs :=
  let wt := kw_window_type.getD "fixed"
  if wt = "fixed" ∨ wt = "variable" then
    let cs' : ClassState := ⟨some wt⟩
    match validate_window_size window_size with
    | .error e => (cs', .error e)
    | .ok k => (cs', .ok ⟨wt, k, if wt = "variable" then some false else none⟩)
  else (cs, .error .valueError)

/-- An `Apply` instance at the Python attribute level: the attributes set by
`__new__` plus the strategy attributes.  `obs` is the `_obs` attribute, which
only variable-size initialisation creates; the reduction function is passed
separately to keep the type decidable. -/
structure ApplyObj where
  core : EngineAttrs
  buffer : List Int
  rest : List Int
  obs : Option Nat
deriving DecidableEq

/-- Modelled from the spec: construction of an `Apply` engine, i.e.
`RollingObject.__new__` from rolling/base.py followed by the `__init__` that
the just-written class binding selects (`_init_fixed` consumes the first
`window_size - 1` elements into the buffer behind a sentinel `0`;
`_init_variable`, from the absent `apply.py`, starts with an empty buffer and
`_obs = 0`).  On error nothing is consumed from the source and no object is
produced. -/
def Apply_construct (cs : ClassState) (input : List Int) (window_size : PyVal)
    (kw_window_type : Option String) : ClassState × Except PyErr ApplyObj :=
  match RollingObject_new cs window_size kw_window_type with
  | (cs', .error e) => (cs', .error e)
  | (cs', .ok core) =>
    let k := (pyIntVal core.window_size).toNat
    if core.window_type = "fixed" then
      (cs', .ok ⟨core, 0 :: input.take (k - 1), input.drop (k - 1), none⟩)
    else
      (cs', .ok ⟨core, [], input, some 0⟩)

/-- The steady and draining behaviour shared by the tail of
`_next_variable`: try `_update`; when the source is exhausted, raise
`StopIteration` if `self._obs == 1` and otherwise `_remove_old` once. -/
def Apply_steady (op : List Int → Int) (o : ApplyObj) :
    Except PyErr (Option Int × ApplyObj) :=
  match o.rest with
  | x :: r =>
    let b := o.buffer.tail ++ [x]
    .ok (some (op b), { o with buffer := b, rest := r })
  | [] =>
    match o.obs with
    | none => .error .attributeError
    | some n =>
      if n = 1 then .ok (none, o)
      else
        let b := o.buffer.tail
        .ok (some (op b), { o with buffer := b, obs := some (n - 1) })

/-- A `__next__` call on an `Apply` instance at the Python attribute level.
Python resolves `__next__` on the class, so the method that runs is the one
selected by the class state, not by the window type the instance was
constructed with.  `_next_variable` reads `self._filled` (and, unless the
short-circuit skips it, `self._obs`); on an instance that lacks the attribute
this raises `AttributeError`. -/
def Apply_next (cs : ClassState) (op : List Int → Int) (o : ApplyObj) :
    Except PyErr (Option Int × ApplyObj) :=
  match cs.bound with
  | none => .error .attributeError
  | some wt =>
    if wt = "fixed" then
      match o.rest with
      | [] => .ok (none, o)
      | x :: r =>
        let b := o.buffer.tail ++ [x]
        .ok (some (op b), { o with buffer := b, rest := r })
    else
      match o.core.filled with
      | none => .error .attributeError
      | some fl =>
        if fl = false then
          match o.obs with
          | none => .error .attributeError
          | some n =>
            if n < (pyIntVal o.core.window_size).toNat then
              match o.rest with
              | [] => .ok (none, o)
              | x :: r =>
                let b := o.buffer ++ [x]
                let fl' := if n + 1 = (pyIntVal o.core.window_size).toNat then true else fl
                .ok (some (op b),
                  { o with
                    buffer := b
                    rest := r
                    obs := some (n + 1)
                    core := { o.core with filled := some fl' } })
            else Apply_steady op o
        else Apply_steady op o

theorem hash_append (base mod : Int) (l : List Int) (x : Int) :
    polynomial_hash_sequence base mod (l ++ [x]) =
      (polynomial_hash_sequence base mod l * base + x) % mod := by
  simp [polynomial_hash_sequence, List.foldl_append]

theorem hash_zero_cons (base mod : Int) (l : List Int) :
    polynomial_hash_sequence base mod (0 :: l) =
      polynomial_hash_sequence base mod l := by
  simp [polynomial_hash_sequence]

theorem hash_foldl_bounds (base mod : Int) (hm : 0 < mod) :
    ∀ (l : List Int) (h : Int), 0 ≤ h → h < mod →
      0 ≤ List.foldl (fun a x => (a * base + x) % mod) h l ∧
        List.foldl (fun a x => (a * base + x) % mod) h l < mod := by
  intro l
  induction l with
  | nil => intro h h1 h2; exact ⟨h1, h2⟩
  | cons y t ih =>
    intro h _ _
    exact ih _ (Int.emod_nonneg _ (by omega)) (Int.emod_lt_of_pos _ hm)

theorem hash_bounds (base mod : Int) (hm : 0 < mod) (l : List Int) :
    0 ≤ polynomial_hash_sequence base mod l ∧
      polynomial_hash_sequence base mod l < mod :=
  hash_foldl_bounds base mod hm l 0 le_rfl hm

theorem hash_foldl_congr (base mod : Int) :
    ∀ (l : List Int) (h h' : Int), Int.ModEq mod h h' →
      Int.ModEq mod (List.foldl (fun a x => (a * base + x) % mod) h l)
        (List.foldl (fun a x => (a * base + x) % mod) h' l) := by
  intro l
  induction l with
  | nil => intro h h' hh; exact hh
  | cons y t ih =>
    intro h h' hh
    apply ih
    have h1 : Int.ModEq mod ((h * base + y) % mod) (h * base + y) :=
      Int.emod_emod_of_dvd _ dvd_rfl
    have h2 : Int.ModEq mod (h' * base + y) ((h' * base + y) % mod) :=
      (Int.emod_emod_of_dvd _ dvd_rfl).symm
    exact h1.trans (((hh.mul_right base).add_right y).trans h2)

theorem hash_foldl_shift (base mod : Int) :
    ∀ (l : List Int) (h : Int),
      Int.ModEq mod (List.foldl (fun a x => (a * base + x) % mod) h l)
        (h * base ^ l.length + List.foldl (fun a x => (a * base + x) % mod) 0 l) := by
  intro l
  induction l with
  | nil =>
    intro h
    simp
  | cons y t ih =>
    intro h
    have step1 : List.foldl (fun a x => (a * base + x) % mod) h (y :: t) =
        List.foldl (fun a x => (a * base + x) % mod) ((h * base + y) % mod) t := rfl
    have step2 : List.foldl (fun a x => (a * base + x) % mod) 0 (y :: t) =
        List.foldl (fun a x => (a * base + x) % mod) ((0 * base + y) % mod) t := rfl
    have e1 : Int.ModEq mod
        (List.foldl (fun a x => (a * base + x) % mod) ((h * base + y) % mod) t)
        ((h * base + y) * base ^ t.length +
          List.foldl (fun a x => (a * base + x) % mod) 0 t) :=
      (hash_foldl_congr base mod t _ _ (Int.emod_emod_of_dvd _ dvd_rfl)).trans (ih _)
    have e2 : Int.ModEq mod
        (List.foldl (fun a x => (a * base + x) % mod) ((0 * base + y) % mod) t)
        (y * base ^ t.length + List.foldl (fun a x => (a * base + x) % mod) 0 t) := by
      have := (hash_foldl_congr base mod t ((0 * base + y) % mod) (0 * base + y)
        (Int.emod_emod_of_dvd _ dvd_rfl)).trans (ih (0 * base + y))
      simpa using this
    rw [step1, step2]
    have e3 : Int.ModEq mod
        (h * base ^ (y :: t).length +
          List.foldl (fun a x => (a * base + x) % mod) ((0 * base + y) % mod) t)
        (h * base ^ (y :: t).length +
          (y * base ^ t.length + List.foldl (fun a x => (a * base + x) % mod) 0 t)) :=
      e2.add_left _
    refine e1.trans (Int.ModEq.trans ?_ e3.symm)
    have : (h * base + y) * base ^ t.length +
        List.foldl (fun a x => (a * base + x) % mod) 0 t =
        h * base ^ (y :: t).length +
          (y * base ^ t.length + List.foldl (fun a x => (a * base + x) % mod) 0 t) := by
      simp [List.length_cons, pow_succ]
      ring
    rw [this]

theorem hash_cons_modeq (base mod : Int) (x : Int) (t : List Int) :
    Int.ModEq mod (polynomial_hash_sequence base mod (x :: t))
      (x * base ^ t.length + polynomial_hash_sequence base mod t) := by
  have step : polynomial_hash_sequence base mod (x :: t) =
      List.foldl (fun a y => (a * base + y) % mod) ((0 * base + x) % mod) t := rfl
  rw [step]
  have := (hash_foldl_congr base mod t ((0 * base + x) % mod) (0 * base + x)
    (Int.emod_emod_of_dvd _ dvd_rfl)).trans (hash_foldl_shift base mod t (0 * base + x))
  simpa [polynomial_hash_sequence] using this

theorem hash_tail (base mod : Int) (hm : 0 < mod) (x : Int) (t : List Int) :
    ((polynomial_hash_sequence base mod (x :: t) - x * base ^ t.length) % mod + mod)
        % mod = polynomial_hash_sequence base mod t := by
  have hb := hash_bounds base mod hm t
  have e2 : Int.ModEq mod
      (polynomial_hash_sequence base mod (x :: t) - x * base ^ t.length)
      (polynomial_hash_sequence base mod t) := by
    have := (hash_cons_modeq base mod x t).sub_right (x * base ^ t.length)
    simpa using this
  have e3 : (polynomial_hash_sequence base mod (x :: t) - x * base ^ t.length) % mod
      = polynomial_hash_sequence base mod t := by
    have h4 : (polynomial_hash_sequence base mod (x :: t) - x * base ^ t.length) % mod
        = polynomial_hash_sequence base mod t % mod := e2
    rw [h4, Int.emod_eq_of_lt hb.1 hb.2]
  rw [e3]
  have h5 := Int.add_mul_emod_self_left (polynomial_hash_sequence base mod t) mod 1
  simp only [mul_one] at h5
  rw [h5, Int.emod_eq_of_lt hb.1 hb.2]

theorem poly_update_value (base mod : Int) (hm : 0 < mod) (x0 xn : Int)
    (t : List Int) :
    ((((polynomial_hash_sequence base mod (x0 :: t) - x0 * base ^ t.length) % mod
        + mod) % mod) * base + xn) % mod =
      polynomial_hash_sequence base mod (t ++ [xn]) := by
  rw [hash_tail base mod hm x0 t, hash_append]

theorem runFixed_apply_windows (op : List Int → Int) :
    ∀ (rest buf : List Int), 1 ≤ buf.length →
      runFixed (applyStrategy op) buf rest =
        (List.range rest.length).map
          (fun k => op (((buf ++ rest).drop (k + 1)).take buf.length)) := by
  intro rest
  induction rest with
  | nil => intro buf _; rfl
  | cons x r ih =>
    intro buf hb
    obtain ⟨x0, t, rfl⟩ : ∃ x0 t, buf = x0 :: t := by
      cases buf with
      | nil => simp at hb
      | cons a b => exact ⟨a, b, rfl⟩
    have ihx := ih (t ++ [x]) (by simp)
    have hstep : runFixed (applyStrategy op) (x0 :: t) (x :: r) =
        op (t ++ [x]) :: runFixed (applyStrategy op) (t ++ [x]) r := rfl
    rw [hstep, ihx]
    simp only [List.length_cons]
    rw [List.range_succ_eq_map, List.map_cons, List.map_map]
    have hhead : (((x0 :: t) ++ x :: r).drop (0 + 1)).take (t.length + 1)
        = t ++ [x] := by
      simp [List.take_append_eq_append_take]
    refine congrArg₂ List.cons (by rw [hhead]) ?_
    apply List.map_congr_left
    intro k _
    have h1 : (t ++ [x]) ++ r = ((x0 :: t) ++ x :: r).drop 1 := by simp
    have h2 : (t ++ [x]).length = t.length + 1 := by simp
    simp only [Function.comp]
    rw [h1, h2, List.drop_drop]
    have h3 : 1 + (k + 1) = Nat.succ k + 1 := by omega
    rw [h3]

theorem runFixed_poly_apply (base mod : Int) (ws : Nat) (hm : 0 < mod)
    (hws : 1 ≤ ws) :
    ∀ (rest buf : List Int) (H : Int), buf.length = ws →
      H = polynomial_hash_sequence base mod buf →
      runFixed (polyStrategy base mod ws) (H, buf) rest =
        runFixed (applyStrategy (polynomial_hash_sequence base mod)) buf rest := by
  intro rest
  induction rest with
  | nil => intro buf H _ _; rfl
  | cons x r ih =>
    intro buf H hlen hH
    cases buf with
    | nil => simp at hlen; omega
    | cons x0 t =>
      have ht : t.length = ws - 1 := by simp at hlen; omega
      have hv : ((((H - x0 * base ^ (ws - 1)) % mod + mod) % mod) * base + x) % mod
          = polynomial_hash_sequence base mod (t ++ [x]) := by
        rw [hH, ← ht]
        exact poly_update_value base mod hm x0 x t
      have hstepP : runFixed (polyStrategy base mod ws) (H, x0 :: t) (x :: r) =
          (((((H - x0 * base ^ (ws - 1)) % mod + mod) % mod) * base + x) % mod) ::
            runFixed (polyStrategy base mod ws)
              (((((H - x0 * base ^ (ws - 1)) % mod + mod) % mod) * base + x) % mod,
                t ++ [x]) r := rfl
      have hstepA : runFixed (applyStrategy (polynomial_hash_sequence base mod))
          (x0 :: t) (x :: r) =
          polynomial_hash_sequence base mod (t ++ [x]) ::
            runFixed (applyStrategy (polynomial_hash_sequence base mod)) (t ++ [x]) r := rfl
      rw [hstepP, hstepA, hv]
      refine congrArg₂ List.cons rfl ?_
      exact ih (t ++ [x]) _ (by simp at hlen ⊢; omega) rfl

theorem runVariable_succ {σ : Type} (S : RollingStrategy σ) (ws fuel : Nat)
    (st : VarState σ) :
    runVariable S ws (fuel + 1) st =
      match nextVariable S ws st with
      | (none, _) => []
      | (some v, st') => v :: runVariable S ws fuel st' := rfl

theorem runVariable_poly_apply (base mod : Int) (ws : Nat) (hm : 0 < mod)
    (hws : 1 ≤ ws) :
    ∀ (fuel : Nat) (fl : Bool) (buf rest : List Int) (H : Int),
      H = polynomial_hash_sequence base mod buf →
      (fl = false → buf.length < ws) →
      (fl = true → rest ≠ [] → buf.length = ws) →
      runVariable (polyStrategy base mod ws) ws fuel ⟨fl, (H, buf), rest⟩ =
        runVariable (applyStrategy (polynomial_hash_sequence base mod)) ws fuel
          ⟨fl, buf, rest⟩ := by
  intro fuel
  induction fuel with
  | zero => intro fl buf rest H _ _ _; rfl
  | succ n ih =>
    intro fl buf rest H hH inv2 inv3
    by_cases hc : fl = false ∧ buf.length < ws
    · obtain ⟨hfl, hlt⟩ := hc
      subst hfl
      cases rest with
      | nil =>
        rw [runVariable_succ, runVariable_succ]
        have h1 : nextVariable (polyStrategy base mod ws) ws
            ⟨false, (H, buf), []⟩ = (none, ⟨false, (H, buf), []⟩) := by
          simp [nextVariable, polyStrategy, hlt]
        have h2 : nextVariable (applyStrategy (polynomial_hash_sequence base mod))
            ws ⟨false, buf, []⟩ = (none, ⟨false, buf, []⟩) := by
          simp [nextVariable, applyStrategy, hlt]
        rw [h1, h2]
      | cons x r =>
        rw [runVariable_succ, runVariable_succ]
        have hv : (H * base + x) % mod =
            polynomial_hash_sequence base mod (buf ++ [x]) := by
          rw [hH, hash_append]
        have h1 : nextVariable (polyStrategy base mod ws) ws
            ⟨false, (H, buf), x :: r⟩ =
            (some ((H * base + x) % mod),
              ⟨if (buf ++ [x]).length = ws then true else false,
                ((H * base + x) % mod, buf ++ [x]), r⟩) := by
          simp [nextVariable, polyStrategy, hlt]
        have h2 : nextVariable (applyStrategy (polynomial_hash_sequence base mod))
            ws ⟨false, buf, x :: r⟩ =
            (some (polynomial_hash_sequence base mod (buf ++ [x])),
              ⟨if (buf ++ [x]).length = ws then true else false, buf ++ [x], r⟩) := by
          simp [nextVariable, applyStrategy, hlt]
        rw [h1, h2, hv]
        refine congrArg₂ List.cons rfl ?_
        by_cases hfull : (buf ++ [x]).length = ws
        · rw [if_pos hfull]
          exact ih true (buf ++ [x]) r _ rfl (by intro h; cases h)
            (fun _ _ => hfull)
        · rw [if_neg hfull]
          refine ih false (buf ++ [x]) r _ rfl (fun _ => ?_) (by intro h; cases h)
          have : (buf ++ [x]).length = buf.length + 1 := by simp
          omega
    · -- the engine is past the filling phase, so the flag must be set
      have hfl : fl = true := by
        cases fl with
        | false => exact absurd ⟨rfl, inv2 rfl⟩ hc
        | true => rfl
      subst hfl
      cases rest with
      | cons x r =>
        rw [runVariable_succ, runVariable_succ]
        have hlen : buf.length = ws := inv3 rfl (by simp)
        obtain ⟨x0, t, rfl⟩ : ∃ x0 t, buf = x0 :: t := by
          cases buf with
          | nil => simp at hlen; omega
          | cons a b => exact ⟨a, b, rfl⟩
        have ht : t.length = ws - 1 := by simp at hlen; omega
        have hv : ((((H - x0 * base ^ (ws - 1)) % mod + mod) % mod) * base + x) % mod
            = polynomial_hash_sequence base mod (t ++ [x]) := by
          rw [hH, ← ht]
          exact poly_update_value base mod hm x0 x t
        have h1 : nextVariable (polyStrategy base mod ws) ws
            ⟨true, (H, x0 :: t), x :: r⟩ =
            (some (((((H - x0 * base ^ (ws - 1)) % mod + mod) % mod) * base + x) % mod),
              ⟨true, (((((H - x0 * base ^ (ws - 1)) % mod + mod) % mod) * base + x) % mod,
                t ++ [x]), r⟩) := by
          simp [nextVariable, polyStrategy]
        have h2 : nextVariable (applyStrategy (polynomial_hash_sequence base mod))
            ws ⟨true, x0 :: t, x :: r⟩ =
            (some (polynomial_hash_sequence base mod (t ++ [x])),
              ⟨true, t ++ [x], r⟩) := by
          simp [nextVariable, applyStrategy]
        rw [h1, h2, hv]
        refine congrArg₂ List.cons rfl ?_
        refine ih true (t ++ [x]) r _ rfl (by intro h; cases h) (fun _ _ => ?_)
        simp at hlen ⊢
        omega
      | nil =>
        rw [runVariable_succ, runVariable_succ]
        by_cases hone : buf.length = 1
        · have h1 : nextVariable (polyStrategy base mod ws) ws
              ⟨true, (H, buf), []⟩ = (none, ⟨true, (H, buf), []⟩) := by
            simp [nextVariable, polyStrategy, hone]
          have h2 : nextVariable (applyStrategy (polynomial_hash_sequence base mod))
              ws ⟨true, buf, []⟩ = (none, ⟨true, buf, []⟩) := by
            simp [nextVariable, applyStrategy, hone]
          rw [h1, h2]
        · have h1 : nextVariable (polyStrategy base mod ws) ws
              ⟨true, (H, buf), []⟩ =
              (some (((H - buf.headI * base ^ (buf.length - 1)) % mod + mod) % mod),
                ⟨true, (((H - buf.headI * base ^ (buf.length - 1)) % mod + mod) % mod,
                  buf.tail), []⟩) := by
            simp [nextVariable, polyStrategy, hone]
          have h2 : nextVariable (applyStrategy (polynomial_hash_sequence base mod))
              ws ⟨true, buf, []⟩ =
              (some (polynomial_hash_sequence base mod buf.tail),
                ⟨true, buf.tail, []⟩) := by
            simp [nextVariable, applyStrategy, hone]
          have hv : ((H - buf.headI * base ^ (buf.length - 1)) % mod + mod) % mod =
              polynomial_hash_sequence base mod buf.tail := by
            cases buf with
            | nil =>
              simp [hH, polynomial_hash_sequence]
            | cons x0 t =>
              simp only [List.headI, List.tail_cons, List.length_cons,
                Nat.add_sub_cancel]
              rw [hH]
              exact hash_tail base mod hm x0 t
          rw [h1, h2, hv]
          refine congrArg₂ List.cons rfl ?_
          exact ih true buf.tail [] _ rfl (by intro h; cases h)
            (fun _ h => absurd rfl h)

theorem runVariable_apply_drain (op : List Int → Int) (ws : Nat) :
    ∀ (fuel : Nat) (buf : List Int), 1 ≤ buf.length → buf.length ≤ fuel →
      (runVariable (applyStrategy op) ws fuel ⟨true, buf, []⟩).length =
        buf.length - 1 := by
  intro fuel
  induction fuel with
  | zero =>
    intro buf h1 h2
    simp only [runVariable, List.length_nil]
    omega
  | succ n ih =>
    intro buf h1 h2
    by_cases hone : buf.length = 1
    · have h3 : nextVariable (applyStrategy op) ws ⟨true, buf, []⟩ =
          (none, ⟨true, buf, []⟩) := by
        simp [nextVariable, applyStrategy, hone]
      rw [runVariable_succ, h3]
      simp
      omega
    · have h3 : nextVariable (applyStrategy op) ws ⟨true, buf, []⟩ =
          (some (op buf.tail), ⟨true, buf.tail, []⟩) := by
        simp [nextVariable, applyStrategy, hone]
      rw [runVariable_succ, h3]
      have h4 : buf.tail.length = buf.length - 1 := by
        simp [List.length_tail]
      have h5 := ih buf.tail (by omega) (by omega)
      simp only [List.length_cons, h5, h4]
      omega

theorem runVariable_apply_steady (op : List Int → Int) (ws : Nat) :
    ∀ (rest : List Int) (fuel : Nat) (buf : List Int), buf.length = ws →
      1 ≤ ws → rest.length + ws ≤ fuel →
      (runVariable (applyStrategy op) ws fuel ⟨true, buf, rest⟩).length =
        rest.length + (ws - 1) := by
  intro rest
  induction rest with
  | nil =>
    intro fuel buf hlen hws hfuel
    have := runVariable_apply_drain op ws fuel buf (by omega) (by omega)
    simpa [hlen] using this
  | cons x r ih =>
    intro fuel buf hlen hws hfuel
    cases fuel with
    | zero => simp at hfuel
    | succ n =>
      have hne : buf ≠ [] := by
        intro h
        rw [h] at hlen
        simp at hlen
        omega
      have h3 : nextVariable (applyStrategy op) ws ⟨true, buf, x :: r⟩ =
          (some (op (buf.tail ++ [x])), ⟨true, buf.tail ++ [x], r⟩) := by
        simp [nextVariable, applyStrategy]
      rw [runVariable_succ, h3]
      have h4 : (buf.tail ++ [x]).length = ws := by
        simp [List.length_tail]
        cases buf with
        | nil => exact absurd rfl hne
        | cons a b => simp at hlen ⊢; omega
      have h5 := ih n (buf.tail ++ [x]) h4 hws (by simp at hfuel ⊢; omega)
      simp only [List.length_cons, h5]
      omega

theorem runVariable_apply_fill (op : List Int → Int) (ws : Nat) :
    ∀ (rest buf : List Int) (fuel : Nat), buf.length < ws →
      2 * rest.length + ws ≤ fuel →
      (runVariable (applyStrategy op) ws fuel ⟨false, buf, rest⟩).length =
        if ws ≤ buf.length + rest.length then rest.length + (ws - 1)
        else rest.length := by
  intro rest
  induction rest with
  | nil =>
    intro buf fuel hlt hfuel
    cases fuel with
    | zero => omega
    | succ n =>
      have h3 : nextVariable (applyStrategy op) ws ⟨false, buf, []⟩ =
          (none, ⟨false, buf, []⟩) := by
        simp [nextVariable, applyStrategy, hlt]
      rw [runVariable_succ, h3]
      rw [if_neg (by simp; omega)]
  | cons x r ih =>
    intro buf fuel hlt hfuel
    cases fuel with
    | zero => simp at hfuel
    | succ n =>
      have h3 : nextVariable (applyStrategy op) ws ⟨false, buf, x :: r⟩ =
          (some (op (buf ++ [x])),
            ⟨if (buf ++ [x]).length = ws then true else false, buf ++ [x], r⟩) := by
        simp [nextVariable, applyStrategy, hlt]
      rw [runVariable_succ, h3]
      by_cases hfull : (buf ++ [x]).length = ws
      · rw [if_pos hfull]
        have h5 := runVariable_apply_steady op ws r n (buf ++ [x]) hfull
          (by simp at hfull; omega) (by simp at hfuel ⊢; omega)
        simp only [List.length_cons, h5]
        have h6 : buf.length + 1 = ws := by simpa using hfull
        rw [if_pos (by omega)]
        omega
      · rw [if_neg hfull]
        have h5 := ih (buf ++ [x]) n (by simp at hfull ⊢; omega)
          (by simp at hfuel; omega)
        have hlen1 : (buf ++ [x]).length = buf.length + 1 := by simp
        rw [hlen1] at h5
        simp only [List.length_cons, h5]
        by_cases hc : ws ≤ buf.length + (r.length + 1)
        · rw [if_pos (by omega), if_pos hc]
          omega
        · rw [if_neg (by omega), if_neg hc]

theorem nextFixed_none {σ : Type} (S : RollingStrategy σ) (st : σ × List Int)
    (h : (nextFixed S st).1 = none) : (nextFixed S st).2 = st := by
  obtain ⟨s, rest⟩ := st
  cases rest with
  | nil => rfl
  | cons x r => simp [nextFixed] at h

theorem nextVariable_none {σ : Type} (S : RollingStrategy σ) (ws : Nat)
    (st : VarState σ) (h : (nextVariable S ws st).1 = none) :
    (nextVariable S ws st).2 = st := by
  obtain ⟨fl, s, rest⟩ := st
  by_cases hc : fl = false ∧ S.obs s < ws
  · cases rest with
    | nil => simp [nextVariable, hc]
    | cons x r => simp [nextVariable, hc] at h
  · cases rest with
    | cons x r => simp [nextVariable, hc] at h
    | nil =>
      by_cases h1 : S.obs s = 1
      · simp [nextVariable, hc, h1]
      · simp [nextVariable, hc, h1] at h

theorem iterSteps_none {α : Type} (step : α → Option Int × α)
    (hpres : ∀ st, (step st).1 = none → (step st).2 = st) :
    ∀ (k : Nat) (st : α), (step st).1 = none →
      (iterSteps step k st).1 = none := by
  intro k
  induction k with
  | zero => intro st h; exact h
  | succ n ih =>
    intro st h
    show (iterSteps step n (step st).2).1 = none
    rw [hpres st h]
    exact ih st h

theorem new_isErr_iff (cs : ClassState) (ws : PyVal) (kw : Option String) :
    isErr (RollingObject_new cs ws kw).2 = true ↔
      (¬(isinstance_int ws = true ∧ 0 < pyIntVal ws) ∨
        ¬(kw.getD "fixed" = "fixed" ∨ kw.getD "fixed" = "variable")) := by
  by_cases hwt : kw.getD "fixed" = "fixed" ∨ kw.getD "fixed" = "variable"
  · cases ws with
    | pyInt n =>
      by_cases hn : n ≤ 0
      · simp [RollingObject_new, validate_window_size, isinstance_int,
          pyIntVal, isErr, hwt, hn]
      · simp [RollingObject_new, validate_window_size, isinstance_int,
          pyIntVal, isErr, hwt, hn]
    | pyBool b =>
      cases b <;>
        simp [RollingObject_new, validate_window_size, isinstance_int,
          pyIntVal, isErr, hwt]
    | pyFloat q =>
      simp [RollingObject_new, validate_window_size, isinstance_int,
        pyIntVal, isErr, hwt]
    | pyStr s =>
      simp [RollingObject_new, validate_window_size, isinstance_int,
        pyIntVal, isErr, hwt]
  · simp [RollingObject_new, isErr, hwt]

/-- C1 counterexample: with variable window type, window_size 2 and the
one-element input [3], the engine produces 1 value before exhaustion, not
len(input) + window_size - 1 = 2: during filling, exhaustion of the source
propagates out of add_new at once, so inputs shorter than the window never
reach the draining phase. -/
theorem variable_window_count_cex :
    (ApplyRun [3] 2 (fun l => l.foldl (fun a x => a + x) 0) .variable 10).length
      = 1 ∧
    ¬((ApplyRun [3] 2 (fun l => l.foldl (fun a x => a + x) 0) .variable 10).length
      = 1 + 2 - 1) := by
  constructor
  · rfl
  · decide

/-- C1 (amended): an Apply engine with variable window type and positive
window_size produces, before signalling exhaustion, exactly
len(input) + window_size - 1 values when len(input) >= window_size and
exactly len(input) values when len(input) < window_size (so 0 for an empty
input).  Any fuel of at least 2 * len(input) + window_size lets the run
reach exhaustion, so the count does not depend on it. -/
theorem variable_window_count (op : List Int → Int) (ws : Nat)
    (input : List Int) (fuel : Nat) (hws : 1 ≤ ws)
    (hfuel : 2 * input.length + ws ≤ fuel) :
    (ApplyRun input ws op .variable fuel).length =
      if ws ≤ input.length then input.length + ws - 1 else input.length := by
  have h := runVariable_apply_fill op ws input [] fuel (by simpa using hws)
    hfuel
  show (runVariable (applyStrategy op) ws fuel ⟨false, [], input⟩).length = _
  rw [h]
  simp only [List.length_nil, Nat.zero_add]
  by_cases hc : ws ≤ input.length
  · rw [if_pos hc, if_pos hc]
    omega
  · rw [if_neg hc, if_neg hc]

/-- C1 witness: input [3, 1, 4], window_size 2, fuel 12. -/
theorem variable_window_count_witness :
    1 ≤ 2 ∧ 2 * ([3, 1, 4] : List Int).length + 2 ≤ 12 ∧
      (ApplyRun [3, 1, 4] 2 (fun l => l.foldl (fun a x => a + x) 0)
          .variable 12).length =
        if 2 ≤ ([3, 1, 4] : List Int).length
        then ([3, 1, 4] : List Int).length + 2 - 1
        else ([3, 1, 4] : List Int).length :=
  ⟨by decide, by decide,
    variable_window_count (fun l => l.foldl (fun a x => a + x) 0) 2 [3, 1, 4] 12
      (by decide) (by decide)⟩

/-- C2: for fixed window type, positive window_size and an input at least as
long as the window, the Apply engine produces exactly
len(input) - window_size + 1 values, the k-th being the reduction of the
k-th contiguous sub-window of length window_size, in order. -/
theorem fixed_window_output (op : List Int → Int) (ws : Nat)
    (input : List Int) (fuel : Nat) (hws : 1 ≤ ws) (hlen : ws ≤ input.length) :
    ApplyRun input ws op .fixed fuel =
      (List.range (input.length - ws + 1)).map
        (fun k => op ((input.drop k).take ws)) ∧
    (ApplyRun input ws op .fixed fuel).length = input.length - ws + 1 := by
  have hbl : ((applyInitFixed ws input).1).length = ws := by
    simp [applyInitFixed, List.length_take]
    omega
  have h := runFixed_apply_windows op (applyInitFixed ws input).2
    (applyInitFixed ws input).1 (by rw [hbl]; omega)
  have h2 : (applyInitFixed ws input).1 ++ (applyInitFixed ws input).2
      = 0 :: input := by
    simp [applyInitFixed]
  have h3 : ((applyInitFixed ws input).2).length = input.length - ws + 1 := by
    simp [applyInitFixed]
    omega
  constructor
  · show runFixed (applyStrategy op) (applyInitFixed ws input).1
        (applyInitFixed ws input).2 = _
    rw [h, hbl, h2, h3]
    apply List.map_congr_left
    intro k _
    simp [List.drop_succ_cons]
  · show (runFixed (applyStrategy op) (applyInitFixed ws input).1
        (applyInitFixed ws input).2).length = _
    rw [h]
    simp only [List.length_map, List.length_range]
    exact h3

/-- C2 witness: the spec example input [3, 1, 4, 1, 5] with window_size 2. -/
theorem fixed_window_output_witness :
    1 ≤ 2 ∧ 2 ≤ ([3, 1, 4, 1, 5] : List Int).length ∧
      ApplyRun [3, 1, 4, 1, 5] 2 (fun l => l.foldl (fun a x => a + x) 0)
          .fixed 0 =
        (List.range (([3, 1, 4, 1, 5] : List Int).length - 2 + 1)).map
          (fun k => (fun l => l.foldl (fun a x => a + x) 0)
            ((([3, 1, 4, 1, 5] : List Int).drop k).take 2)) :=
  ⟨by decide, by decide,
    (fixed_window_output (fun l => l.foldl (fun a x => a + x) 0) 2
      [3, 1, 4, 1, 5] 0 (by decide) (by decide)).1⟩

/-- C3: for every input, window size, window type, base and mod (mod positive
and window_size positive, as the specification requires of a validated
configuration), the PolynomialHash engine and the Apply engine whose
reduction is the direct left-to-right Horner hash under the same base and mod
produce identical output sequences: at every window position the
incrementally maintained hash equals the direct hash of that window. -/
theorem polynomial_hash_equals_apply (base mod : Int) (ws : Nat)
    (input : List Int) (wt : WindowType) (fuel : Nat) (hm : 0 < mod)
    (hws : 1 ≤ ws) :
    PolynomialHashRun input ws base mod wt fuel =
      ApplyRun input ws (polynomial_hash_sequence base mod) wt fuel := by
  rcases wt with _ | _
  · by_cases hc : ws - 1 ≤ input.length
    · show runFixed (polyStrategy base mod ws)
          (polynomial_hash_sequence base mod (input.take (ws - 1)),
            0 :: input.take (ws - 1)) (input.drop (ws - 1)) =
        runFixed (applyStrategy (polynomial_hash_sequence base mod))
          (0 :: input.take (ws - 1)) (input.drop (ws - 1))
      exact runFixed_poly_apply base mod ws hm hws (input.drop (ws - 1))
        (0 :: input.take (ws - 1))
        (polynomial_hash_sequence base mod (input.take (ws - 1)))
        (by simp [List.length_take]; omega)
        ((hash_zero_cons base mod (input.take (ws - 1))).symm)
    · have hdrop : input.drop (ws - 1) = [] :=
        List.drop_eq_nil_of_le (by omega)
      show runFixed (polyStrategy base mod ws)
          (polynomial_hash_sequence base mod (input.take (ws - 1)),
            0 :: input.take (ws - 1)) (input.drop (ws - 1)) =
        runFixed (applyStrategy (polynomial_hash_sequence base mod))
          (0 :: input.take (ws - 1)) (input.drop (ws - 1))
      rw [hdrop]
      rfl
  · show runVariable (polyStrategy base mod ws) ws fuel ⟨false, (0, []), input⟩ =
      runVariable (applyStrategy (polynomial_hash_sequence base mod)) ws fuel
        ⟨false, [], input⟩
    exact runVariable_poly_apply base mod ws hm hws fuel false [] input 0 rfl
      (fun _ => by simpa using hws) (fun hh => by cases hh)

/-- C3 witness: the spec test input [3, -8, 1, 7, -2] with window_size 3,
base 101, mod 7919, variable window type. -/
theorem polynomial_hash_equals_apply_witness :
    (0 : Int) < 7919 ∧ 1 ≤ 3 ∧
      PolynomialHashRun [3, -8, 1, 7, -2] 3 101 7919 .variable 20 =
        ApplyRun [3, -8, 1, 7, -2] 3 (polynomial_hash_sequence 101 7919)
          .variable 20 :=
  ⟨by decide, by decide,
    polynomial_hash_equals_apply 101 7919 3 [3, -8, 1, 7, -2] .variable 20
      (by decide) (by decide)⟩

/-- C4: in the steady phase of a variable window (filled flag set, window at
its full size), an advance on an exhausted source returns Exhausted when the
logical window size is 1; otherwise it removes the oldest element, decrements
the logical size by one, emits the reduction of the shrunk window, stays in
the same (filled, exhausted-source) configuration, and the remaining run
keeps draining one element per call until the size reaches 1, emitting
window_size - 1 values in total. -/
theorem variable_drain_transition (op : List Int → Int) (ws : Nat)
    (buf : List Int) (hlen : buf.length = ws) (hws : 1 ≤ ws) :
    (ws = 1 → nextVariable (applyStrategy op) ws ⟨true, buf, []⟩ =
      (none, ⟨true, buf, []⟩)) ∧
    (1 < ws → nextVariable (applyStrategy op) ws ⟨true, buf, []⟩ =
      (some (op buf.tail), ⟨true, buf.tail, []⟩) ∧
      buf.tail.length = ws - 1) ∧
    (∀ fuel, buf.length ≤ fuel →
      (runVariable (applyStrategy op) ws fuel ⟨true, buf, []⟩).length
        = ws - 1) := by
  refine ⟨?_, ?_, ?_⟩
  · intro h1
    subst h1
    simp [nextVariable, applyStrategy, hlen]
  · intro h1
    have hne : ¬ buf.length = 1 := by omega
    constructor
    · simp [nextVariable, applyStrategy, hne]
    · simp [List.length_tail]
      omega
  · intro fuel hf
    rw [runVariable_apply_drain op ws fuel buf (by omega) hf, hlen]

/-- C4 witness: buffer [5, 6, 7] at window_size 3 with exhausted source. -/
theorem variable_drain_transition_witness :
    ([5, 6, 7] : List Int).length = 3 ∧
      (runVariable (applyStrategy (fun l => l.foldl (fun a x => a + x) 0)) 3 5
        ⟨true, [5, 6, 7], []⟩).length = 3 - 1 :=
  ⟨by decide,
    (variable_drain_transition (fun l => l.foldl (fun a x => a + x) 0) 3
      [5, 6, 7] (by decide) (by decide)).2.2 5 (by decide)⟩

/-- C5: construction errors exactly when window_size is not a positive
integer in the sense of the Python type check (no integer type, or an integer
value at most 0) or the window type is not one of "fixed" and "variable";
otherwise an engine is produced.  In particular it errors for window_size 0,
-3 and the float 2.5. -/
theorem construction_validation (cs : ClassState) (ws : PyVal)
    (kw : Option String) :
    (isErr (RollingObject_new cs ws kw).2 = true ↔
      (¬(isinstance_int ws = true ∧ 0 < pyIntVal ws) ∨
        ¬(kw.getD "fixed" = "fixed" ∨ kw.getD "fixed" = "variable"))) ∧
    isErr (RollingObject_new cs (.pyInt 0) (some "fixed")).2 = true ∧
    isErr (RollingObject_new cs (.pyInt (-3)) (some "fixed")).2 = true ∧
    isErr (RollingObject_new cs (.pyFloat (5 / 2)) (some "fixed")).2 = true :=
  ⟨new_isErr_iff cs ws kw, rfl, rfl, rfl⟩

/-- C6: for both window types, an advance call that signals exhaustion leaves
the engine state unchanged, and from then on every further advance call also
signals exhaustion and emits no value. -/
theorem exhausted_is_terminal {σ : Type} (S : RollingStrategy σ) (ws : Nat)
    (stF : σ × List Int) (stV : VarState σ) :
    ((nextFixed S stF).1 = none →
      ∀ k, (iterSteps (nextFixed S) k stF).1 = none) ∧
    ((nextVariable S ws stV).1 = none →
      ∀ k, (iterSteps (nextVariable S ws) k stV).1 = none) := by
  constructor
  · intro h k
    exact iterSteps_none (nextFixed S) (fun st hst => nextFixed_none S st hst)
      k stF h
  · intro h k
    exact iterSteps_none (nextVariable S ws)
      (fun st hst => nextVariable_none S ws st hst) k stV h

/-- C6 witness: exhausted fixed and variable Apply engines stay exhausted for
four further advances. -/
theorem exhausted_is_terminal_witness :
    (nextFixed (applyStrategy (fun l => l.foldl (fun a x => a + x) 0))
      (([] : List Int), [])).1 = none ∧
    (iterSteps (nextFixed (applyStrategy (fun l => l.foldl (fun a x => a + x) 0)))
      4 (([] : List Int), [])).1 = none ∧
    (nextVariable (applyStrategy (fun l => l.foldl (fun a x => a + x) 0)) 2
      ⟨false, [], []⟩).1 = none ∧
    (iterSteps (nextVariable (applyStrategy (fun l => l.foldl (fun a x => a + x) 0)) 2)
      4 ⟨false, [], []⟩).1 = none := by
  have h := exhausted_is_terminal
    (applyStrategy (fun l => l.foldl (fun a x => a + x) 0)) 2
    (([] : List Int), []) ⟨false, [], []⟩
  exact ⟨rfl, h.1 rfl 4, rfl, h.2 rfl 4⟩

/-- C7: with an invalid window_size or an unrecognized window type,
construction errors, produces no engine object, and consumes nothing from
the source: its outcome is identical for every source sequence. -/
theorem invalid_config_before_consumption (cs : ClassState) (ws : PyVal)
    (kw : Option String) (input input' : List Int)
    (h : ¬(isinstance_int ws = true ∧ 0 < pyIntVal ws) ∨
      ¬(kw.getD "fixed" = "fixed" ∨ kw.getD "fixed" = "variable")) :
    isErr (Apply_construct cs input ws kw).2 = true ∧
    (Apply_construct cs input ws kw).2 = (Apply_construct cs input' ws kw).2 := by
  have herr : isErr (RollingObject_new cs ws kw).2 = true :=
    (new_isErr_iff cs ws kw).mpr h
  rcases hnew : RollingObject_new cs ws kw with ⟨cs', res⟩
  cases res with
  | ok a =>
    rw [hnew] at herr
    simp [isErr] at herr
  | error e =>
    constructor
    · simp [Apply_construct, hnew, isErr]
    · simp [Apply_construct, hnew]

/-- C7 witness: window_size 0 with two different sources. -/
theorem invalid_config_before_consumption_witness :
    (¬(isinstance_int (.pyInt 0) = true ∧ 0 < pyIntVal (.pyInt 0)) ∨
      ¬((Option.getD none "fixed") = "fixed" ∨
        (Option.getD none "fixed") = "variable")) ∧
    isErr (Apply_construct ⟨none⟩ [1, 2] (.pyInt 0) none).2 = true ∧
    (Apply_construct ⟨none⟩ [1, 2] (.pyInt 0) none).2 =
      (Apply_construct ⟨none⟩ [7] (.pyInt 0) none).2 :=
  ⟨by decide,
    invalid_config_before_consumption ⟨none⟩ (.pyInt 0) none [1, 2] [7]
      (by decide)⟩

/-- C8: engines of one class share the class-level __next__ binding that
__new__ rewrites.  After a fixed engine A over [1, 2, 3] is constructed, one
advance of A yields the value 3 (the sum of the first window [1, 2]); but if
a second engine B with variable window type is constructed in between, the
class now binds _next_variable, and the same advance of A reads the _filled
attribute that A does not have and raises AttributeError instead: the
sequence produced by A depends on the construction of B. -/
theorem class_binding_breaks_isolation :
    Apply_construct ⟨none⟩ [1, 2, 3] (.pyInt 2) (some "fixed") =
      (⟨some "fixed"⟩, .ok ⟨⟨"fixed", .pyInt 2, none⟩, [0, 1], [2, 3], none⟩) ∧
    Apply_next ⟨some "fixed"⟩ (fun l => l.foldl (fun a x => a + x) 0)
        ⟨⟨"fixed", .pyInt 2, none⟩, [0, 1], [2, 3], none⟩ =
      .ok (some 3, ⟨⟨"fixed", .pyInt 2, none⟩, [1, 2], [3], none⟩) ∧
    (Apply_construct ⟨some "fixed"⟩ [] (.pyInt 1) (some "variable")).1 =
      ⟨some "variable"⟩ ∧
    Apply_next ⟨some "variable"⟩ (fun l => l.foldl (fun a x => a + x) 0)
        ⟨⟨"fixed", .pyInt 2, none⟩, [0, 1], [2, 3], none⟩ =
      .error .attributeError :=
  ⟨rfl, rfl, rfl, rfl⟩

/-- C9: omitting the window_type keyword is identical to passing "fixed",
both for the attributes set by __new__ and for the fully constructed Apply
engine. -/
theorem default_window_type_is_fixed (cs : ClassState) (input : List Int)
    (ws : PyVal) :
    RollingObject_new cs ws none = RollingObject_new cs ws (some "fixed") ∧
    Apply_construct cs input ws none =
      Apply_construct cs input ws (some "fixed") :=
  ⟨rfl, rfl⟩

/-- C10: the window_size validation accepts the boolean True because bool is
an int subtype for isinstance: construction succeeds, the engine keeps
window_size True, and its integer value is 1. -/
theorem bool_window_size_accepted (cs : ClassState) :
    validate_window_size (.pyBool true) = .ok (.pyBool true) ∧
    (RollingObject_new cs (.pyBool true) (some "fixed")).2 =
      .ok ⟨"fixed", .pyBool true, none⟩ ∧
    pyIntVal (.pyBool true) = 1 :=
  ⟨rfl, rfl, rfl⟩
